import Mathlib

/-!
Verification development for the combinatorial battery scheduler in
`src/scheduler.rs` of the mygrid_scheduler repository.

The numeric domain of the source is `f64`; it is embedded here as `ℚ`
(exact arithmetic over the rationals).  The 96-entry fixed arrays
(`tariffs.buy`, `net_prod`, `cons`) are embedded as total functions
`ℕ → ℚ`; the source only ever reads indices below `tariffs.length ≤ 96`.
Hard-coded battery constants from `Schedule::new` are top-level
definitions.  Time/`chrono` values (the `DateTime` fields, `block_id`)
are outside the embedding; `create_result_blocks` keeps the pure
hour/minute arithmetic and models the two panic sites (the `usize`
underflow `start_hour + size - 1` for a zero-sized block at hour 0, and
the `with_hour(..).unwrap()` calls) by returning `Option`.
-/

-- Batteries marks the arithmetic of `Rat` irreducible, which blocks the
-- evaluation of the concrete scenarios below; re-open it for this file.
attribute [local semireducible] Rat.add Rat.mul Rat.inv Rat.sub Rat.ofScientific

namespace Mygrid

/-- Block types, from `enum BlockType` in scheduler.rs. -/
inductive BlockType where
  | Charge
  | Hold
  | Use
deriving DecidableEq, Repr

/-- Internal search block, from `struct BlockInternal`. -/
structure BlockInternal where
  block_type : BlockType
  start_hour : ℕ
  size : ℕ
  cost : ℚ
  charge_in : ℚ
  charge_out : ℚ
deriving DecidableEq, Repr

/-- Partial/complete candidate schedule, from `struct BlockCollection`. -/
structure BlockCollection where
  blocks : List BlockInternal
  next_start : ℕ
  next_charge_in : ℚ
  total_cost : ℚ
deriving DecidableEq, Repr

/-- Per-period accounting record, from `struct PeriodMetrics`. -/
structure PeriodMetrics where
  block_type : BlockType
  start : ℕ
  size : ℕ
  charge_in : ℚ
  charge_out : ℚ
  hold_level : ℚ
  cost : ℚ
deriving DecidableEq, Repr

/-- Output block, from `struct Block`.  `start_time`/`end_time`/`block_id`
(chrono timestamps), the copied `soc_kwh` field and the constant
`status: Waiting` are not modelled; the day-rollover adjustments the
source applies to the timestamps are kept as the two booleans. -/
structure Block where
  block_type : BlockType
  start_hour : ℕ
  start_minute : ℕ
  end_hour : ℕ
  end_minute : ℕ
  start_next_day : Bool
  end_next_day : Bool
  size : ℕ
  cost : ℚ
  charge_in : ℚ
  charge_out : ℚ
  soc_in : ℕ
  soc_out : ℕ
deriving DecidableEq, Repr

/-- The scheduler state relevant to the search: the quarter-hourly buy
tariffs with their in-scope length, and the net-production and
consumption series (fields `tariffs`, `net_prod`, `cons` of
`struct Schedule`). -/
structure Schedule where
  buy : ℕ → ℚ
  length : ℕ
  net_prod : ℕ → ℚ
  cons : ℕ → ℚ

/-- `bat_kwh: 14.931` from `Schedule::new`. -/
def bat_kwh : ℚ := 14931 / 1000

/-- `soc_kwh: 0.1659` from `Schedule::new`. -/
def soc_kwh : ℚ := 1659 / 10000

/-- `charge_kwh_instance: 6.0 / 4.0` from `Schedule::new`. -/
def charge_kwh_instance : ℚ := 6 / 4

/-- `charge_efficiency: 0.9` from `Schedule::new`. -/
def charge_efficiency : ℚ := 9 / 10

/-- `discharge_efficiency: 0.9` from `Schedule::new`. -/
def discharge_efficiency : ℚ := 9 / 10

/-- Rust `f64::round`: rounding to the nearest integer, half away from
zero. -/
def round_away (q : ℚ) : ℤ :=
  if q < 0 then -⌊-q + 1/2⌋ else ⌊q + 1/2⌋

/-- The two-decimal rounding idiom `(x * 100.0).round() / 100.0`. -/
def round2 (q : ℚ) : ℚ := (round_away (q * 100) : ℚ) / 100

/-- Rust float-to-integer truncation toward zero (`as usize` before the
saturation step). -/
def rat_trunc (q : ℚ) : ℤ :=
  if q < 0 then -⌊-q⌋ else ⌊q⌋

namespace Schedule

/-- `add_net_prod` from scheduler.rs: folds one slot of net production
into a `PeriodMetrics`. -/
def add_net_prod (s : Schedule) (np_idx : ℕ) (np_item : ℚ) (pm : PeriodMetrics) :
    PeriodMetrics :=
  let efficiency : ℚ :=
    if np_item < 0 then discharge_efficiency else 1 / charge_efficiency
  let net_add := pm.charge_out + np_item / efficiency
  if net_add < pm.hold_level then
    { pm with
      cost := pm.cost + s.buy np_idx * (pm.hold_level - net_add) * efficiency,
      charge_out := pm.hold_level }
  else
    { pm with charge_out := min net_add bat_kwh }

/-- The initial `PeriodMetrics` value built at the top of
`update_for_pv`. -/
def init_pm (bt : BlockType) (start e : ℕ) (charge_in : ℚ) : PeriodMetrics :=
  { block_type := bt
    start := start
    size := e - start
    charge_in := charge_in
    charge_out := charge_in
    hold_level := if bt ≠ BlockType.Use then charge_in else 0
    cost := 0 }

/-- `update_for_pv` from scheduler.rs.  `e` is the exclusive end slot.
The slice `net_prod[start..end]` of the source is the index list
`List.range' start (e - start)`. -/
def update_for_pv (s : Schedule) (bt : BlockType) (start e : ℕ) (charge_in : ℚ) :
    PeriodMetrics :=
  if bt = BlockType.Charge then
    { init_pm bt start e charge_in with
      cost := ((List.range (e - start)).map
        (fun k => s.buy (start + k) * s.cons (start + k))).sum }
  else
    (List.range' start (e - start)).foldl
      (fun pm i => s.add_net_prod i (s.net_prod i) pm) (init_pm bt start e charge_in)

/-- `charge_cost_charge_end` from scheduler.rs (with the `tariffs`
argument always `None`, as in every call site): prices a grid charge of
`charge` kWh starting at slot `start` and returns the cost together with
the exclusive end slot. -/
def charge_cost_charge_end (s : Schedule) (start : ℕ) (charge : ℚ) : ℚ × ℕ :=
  let rem := charge - charge_kwh_instance * (rat_trunc (charge / charge_kwh_instance) : ℚ)
  let instance_charge : List ℚ :=
    List.replicate (rat_trunc (charge / charge_kwh_instance)).toNat charge_kwh_instance
      ++ (if round_away (rem * 10) ≠ 0 then [rem] else [])
  let e := min (start + instance_charge.length) s.length
  let c_price := ((List.range (e - start)).map
    (fun i => instance_charge.getD i 0 * s.buy (start + i))).sum
  (c_price, e)

end Schedule

/-- `get_none_charge_block` from scheduler.rs. -/
def get_none_charge_block (pm : PeriodMetrics) : BlockInternal :=
  { block_type := pm.block_type
    start_hour := pm.start
    size := pm.size
    cost := pm.cost
    charge_in := pm.charge_in
    charge_out := pm.charge_out }

namespace Schedule

/-- `seek_charge` from scheduler.rs: an optional leading Hold block over
`[initial_start, start)` followed by an optional grid Charge block
targeting `soc_level` percent. -/
def seek_charge (s : Schedule) (initial_start start soc_level : ℕ) (charge_in : ℚ) :
    BlockCollection :=
  let pm_hold := s.update_for_pv BlockType.Hold initial_start start charge_in
  let blocks : List BlockInternal :=
    if pm_hold.size > 0 then [get_none_charge_block pm_hold] else []
  let need := ((soc_level : ℚ) * soc_kwh - pm_hold.charge_out) / charge_efficiency
  if need > 0 then
    let ce := s.charge_cost_charge_end start need
    let pm_charge := s.update_for_pv BlockType.Charge start ce.2 0
    if pm_charge.size > 0 then
      { blocks := blocks ++
          [{ block_type := BlockType.Charge
             start_hour := start
             size := pm_charge.size
             cost := ce.1 + pm_charge.cost
             charge_in := pm_hold.charge_out
             charge_out := (soc_level : ℚ) * soc_kwh }]
        next_start := start + (ce.2 - start)
        next_charge_in := (soc_level : ℚ) * soc_kwh
        total_cost := pm_hold.cost + (ce.1 + pm_charge.cost) }
    else
      { blocks := blocks
        next_start := start + (ce.2 - start)
        next_charge_in := pm_hold.charge_out
        total_cost := pm_hold.cost + (ce.1 + pm_charge.cost) }
  else
    { blocks := blocks
      next_start := start
      next_charge_in := pm_hold.charge_out
      total_cost := pm_hold.cost }

/-- `seek_use` from scheduler.rs: `none` when the sought interval is
empty, otherwise an optional leading Hold block followed by a Use block
over `[seek_start, seek_end)`. -/
def seek_use (s : Schedule) (initial_start seek_start seek_end : ℕ) (charge_in : ℚ) :
    Option BlockCollection :=
  if seek_start = seek_end then none
  else
    let pm_hold := s.update_for_pv BlockType.Hold initial_start seek_start charge_in
    let pm_use := s.update_for_pv BlockType.Use seek_start seek_end pm_hold.charge_out
    let blocks : List BlockInternal :=
      (if pm_hold.size > 0 then [get_none_charge_block pm_hold] else [])
        ++ (if pm_use.size > 0 then [get_none_charge_block pm_use] else [])
    some
      { blocks := blocks
        next_start := pm_use.start + pm_use.size
        next_charge_in := pm_use.charge_out
        total_cost := pm_hold.cost + pm_use.cost }

/-- `create_base_block_collection` from scheduler.rs: the baseline
schedule, a single Use block over the whole horizon. -/
def create_base_block_collection (s : Schedule) (charge_in : ℚ) : BlockCollection :=
  let pm := s.update_for_pv BlockType.Use 0 s.length charge_in
  let block := get_none_charge_block pm
  { blocks := [block]
    next_start := s.length
    next_charge_in := block.charge_out
    total_cost := round2 block.cost }

/-- `collect_blocks` from scheduler.rs. -/
def collect_blocks (s : Schedule) (quad : List BlockCollection) (next_start : ℕ)
    (next_charge_in total_cost : ℚ) (pm : Option PeriodMetrics) : BlockCollection :=
  let bs := (quad.map (fun b => b.blocks)).flatten
  match pm with
  | some pm =>
      { blocks := bs ++ [get_none_charge_block pm]
        next_start := next_start
        next_charge_in := next_charge_in
        total_cost := total_cost }
  | none =>
      { blocks := bs
        next_start := next_start
        next_charge_in := next_charge_in
        total_cost := total_cost }

/-- A dummy collection standing in for the `Default` placeholder of the
Rust `quad` array; `record_best_collection` is only ever called with a
non-empty slice, so the dummy is never read at any call site. -/
def dummy_collection : BlockCollection :=
  { blocks := [], next_start := 0, next_charge_in := 0, total_cost := 0 }

/-- `record_best_collection` from scheduler.rs: compares the candidate
assembled from `quad` (plus a trailing Hold if the horizon is not yet
covered) against the recorded best and keeps the winner. -/
def record_best_collection (s : Schedule) (quad : List BlockCollection)
    (best_blocks : BlockCollection) : BlockCollection :=
  let lastq := quad.getLastD dummy_collection
  let pm_hold? : Option PeriodMetrics :=
    if lastq.next_start < s.length then
      some (s.update_for_pv BlockType.Hold lastq.next_start s.length lastq.next_charge_in)
    else none
  let total1 := (quad.map (fun b => b.total_cost)).sum +
    (match pm_hold? with | some pm => pm.cost | none => 0)
  let next_charge_in :=
    match pm_hold? with | some pm => pm.charge_out | none => lastq.next_charge_in
  let total_cost := round2 total1
  if total_cost < best_blocks.total_cost then
    s.collect_blocks quad s.length next_charge_in total_cost pm_hold?
  else if total_cost = best_blocks.total_cost then
    let num_blocks := (match pm_hold? with | some _ => 1 | none => 0) +
      (quad.map (fun b => b.blocks.length)).sum
    if num_blocks < best_blocks.blocks.length then
      s.collect_blocks quad s.length next_charge_in total_cost pm_hold?
    else best_blocks
  else best_blocks

end Schedule

/-- The SoC target grid `(0..=90).step_by(5)`. -/
def soc_levels : List ℕ := (List.range 19).map (fun k => k * 5)

namespace Schedule

/-- `seek_best` from scheduler.rs: the nested enumeration of first
charge start, first SoC level, first use window, and the optional second
charge/use cycle, threaded through `record_best_collection` starting
from the baseline collection. -/
def seek_best (s : Schedule) (charge_in : ℚ) : BlockCollection :=
  (List.range s.length).foldl (fun best seek_first_charge =>
    soc_levels.foldl (fun best charge_level_first =>
      let q0 := s.seek_charge 0 seek_first_charge charge_level_first charge_in
      (List.range' q0.next_start (s.length - q0.next_start)).foldl (fun best seek_first_use =>
        (List.range' seek_first_use (s.length + 1 - seek_first_use)).foldl (fun best use_end_first =>
          match s.seek_use q0.next_start seek_first_use use_end_first q0.next_charge_in with
          | none => best
          | some q1 =>
            let best := s.record_best_collection [q0, q1] best
            (List.range' q1.next_start (s.length - q1.next_start)).foldl (fun best seek_second_charge =>
              soc_levels.foldl (fun best charge_level_second =>
                let q2 := s.seek_charge q1.next_start seek_second_charge charge_level_second q1.next_charge_in
                (List.range' q2.next_start (s.length - q2.next_start)).foldl (fun best seek_second_use =>
                  match s.seek_use q2.next_start seek_second_use s.length q2.next_charge_in with
                  | none => best
                  | some q3 => s.record_best_collection [q0, q1, q2, q3] best)
                  best)
                best)
              best)
          best)
        best)
      best)
    (s.create_base_block_collection charge_in)

end Schedule

/-- One iteration of the output-block loop of `create_result_blocks`.
Returns `none` at the source's two panic sites: the `usize` underflow of
`b.start_hour + b.size - 1` when both are zero, and the
`with_hour(..).unwrap()` calls when a computed hour is not a valid hour
of day. -/
def create_result_block (offset : ℕ) (b : BlockInternal) : Option Block :=
  if b.start_hour + b.size = 0 then none
  else
    let sh0 := b.start_hour / 4 + offset
    let start_nd := decide (23 < sh0)
    let sh := if 23 < sh0 then sh0 - 24 else sh0
    let sm := b.start_hour % 4 * 15
    let lastq := b.start_hour + b.size - 1
    let eh0 := lastq / 4 + offset
    let end_nd := decide (23 < eh0)
    let eh := if 23 < eh0 then eh0 - 24 else eh0
    let em := lastq % 4 * 15
    if 23 < sh ∨ 23 < eh then none
    else
      some
        { block_type := b.block_type
          start_hour := sh
          start_minute := sm
          end_hour := eh
          end_minute := em
          start_next_day := start_nd
          end_next_day := end_nd
          size := b.size
          cost := b.cost
          charge_in := b.charge_in
          charge_out := b.charge_out
          soc_in := (min (round_away (b.charge_in / soc_kwh)) 90).toNat + 10
          soc_out := (min (round_away (b.charge_out / soc_kwh)) 90).toNat + 10 }

/-- `create_result_blocks` from scheduler.rs: converts the internal
blocks in order, failing at the first block whose conversion panics. -/
def create_result_blocks (offset : ℕ) : List BlockInternal → Option (List Block)
  | [] => some []
  | b :: bs =>
    match create_result_block offset b, create_result_blocks offset bs with
    | some ob, some obs => some (ob :: obs)
    | _, _ => none

/-- The array preparation of `update_scheduling` (lines 240-259): the
in-scope tariff buy prices become the tariff array, the production and
consumption powers are scaled from W to kW into zero-initialized arrays,
and `net_prod[i] = prod[i] - cons[i]`.  The chrono time-window filtering
is outside the embedding; the inputs here are the already-windowed
series. -/
def schedule_of (tariffs prod cons : List ℚ) : Schedule :=
  { buy := fun i => tariffs.getD i 0
    length := tariffs.length
    net_prod := fun i => prod.getD i 0 / 1000 - cons.getD i 0 / 1000
    cons := fun i => cons.getD i 0 / 1000 }

/-- Line 261 of scheduler.rs:
`let charge_in = (soc_in.max(10) - 10) as f64 * self.soc_kwh;`
(`soc_in` is a `u8`; there is no upper clamp). -/
def charge_in_of (soc_in : ℕ) : ℚ := ((max soc_in 10 - 10 : ℕ) : ℚ) * soc_kwh

/-- `update_scheduling` from scheduler.rs, after the chrono windowing:
builds the arrays, derives the incoming charge, runs `seek_best` and
converts the winning collection to output blocks.  `offset` is
`date_hour.hour()`.  Returns the output block list together with the
recorded `total_cost`, or `none` when `create_result_blocks` panics. -/
def update_scheduling (tariffs prod cons : List ℚ) (soc_in offset : ℕ) :
    Option (List Block × ℚ) :=
  let s := schedule_of tariffs prod cons
  let bc := s.seek_best (charge_in_of soc_in)
  match create_result_blocks offset bc.blocks with
  | some bs => some (bs, bc.total_cost)
  | none => none

/-! ### Definitions taken from the claim texts (for refinement checks) -/

/-- Modelled from the claim text of C2: one slot of the accountant walk,
acting on the pair (accumulated cost, charge so far): pick
`eff = discharge_eff if net_prod[i] < 0 else 1/charge_eff`, form
`net_add = charge_so_far + net_prod[i]/eff`; if `net_add < hold_level`
buy the deficit at `tariff[i]` and hold, else store `min net_add
bat_kwh`. -/
def claim_step (s : Schedule) (hold_level : ℚ) (acc : ℚ × ℚ) (i : ℕ) : ℚ × ℚ :=
  let eff : ℚ := if s.net_prod i < 0 then discharge_efficiency else 1 / charge_efficiency
  let net_add := acc.2 + s.net_prod i / eff
  if net_add < hold_level then
    (acc.1 + s.buy i * (hold_level - net_add) * eff, hold_level)
  else (acc.1, min net_add bat_kwh)

/-- Modelled from the claim text of C4:
`need_kwh = (soc_target · soc_kwh - charge_in) / charge_eff`. -/
def claim_need (soc_target : ℕ) (charge_in : ℚ) : ℚ :=
  ((soc_target : ℚ) * soc_kwh - charge_in) / charge_efficiency

/-- Modelled from the claim text of C4: `floor(need / charge_step_kwh)`
full increments, plus one final partial increment of size
`rem = need mod charge_step_kwh` exactly when `round(rem * 10) ≠ 0`. -/
def claim_increments (need : ℚ) : List ℚ :=
  let rem := need - charge_kwh_instance * (⌊need / charge_kwh_instance⌋ : ℚ)
  List.replicate ⌊need / charge_kwh_instance⌋.toNat charge_kwh_instance
    ++ (if round_away (rem * 10) ≠ 0 then [rem] else [])

/-- Modelled from the claim text of C5: candidates ordered by
`(total_cost, number_of_blocks)` ascending; a candidate is preferred to
the recorded best exactly when its cost is strictly lower, or the costs
are equal and it has strictly fewer blocks. -/
def claim_prefer (cand best : ℚ × ℕ) : Prop :=
  cand.1 < best.1 ∨ (cand.1 = best.1 ∧ cand.2 < best.2)

instance claim_prefer_decidable (cand best : ℚ × ℕ) :
    Decidable (claim_prefer cand best) := by
  unfold claim_prefer
  infer_instance

/-! ### Predicates used by the verification -/

/-- `Chained bs a b cin cout`: the internal blocks `bs` tile the slot
interval `[a, b)` in order, with no gap and no overlap, and thread the
battery charge from `cin` to `cout` (each block starts where the
previous one ended and takes in the charge the previous one put out). -/
def Chained : List BlockInternal → ℕ → ℕ → ℚ → ℚ → Prop
  | [], a, b, cin, cout => a = b ∧ cin = cout
  | blk :: rest, a, b, cin, cout =>
      blk.start_hour = a ∧ blk.charge_in = cin ∧
        Chained rest (a + blk.size) b blk.charge_out cout

/-- Well-formed internal blocks: positive size and charge-out within the
battery bounds. -/
def GoodBlocks (bs : List BlockInternal) : Prop :=
  ∀ blk ∈ bs, 0 < blk.size ∧ 0 ≤ blk.charge_out ∧ blk.charge_out ≤ bat_kwh

/-- The per-candidate cost invariant carried through the whole search:
the recorded best is either the baseline itself or has a strictly lower
(rounded) total cost, and its total cost is a whole number of
hundredths. -/
def CostInv (s : Schedule) (cin : ℚ) (B : BlockCollection) : Prop :=
  (B = s.create_base_block_collection cin ∨
    B.total_cost < (s.create_base_block_collection cin).total_cost) ∧
  ∃ z : ℤ, B.total_cost = (z : ℚ) / 100

/-- The structural invariant carried through the whole search: the
recorded best tiles `[0, N)` threading the incoming charge, and all its
blocks are well formed. -/
def GoodBC (s : Schedule) (cin : ℚ) (B : BlockCollection) : Prop :=
  Chained B.blocks 0 s.length cin B.next_charge_in ∧ GoodBlocks B.blocks

/-- The fields of an output block that mirror its internal block. -/
def OutMatches (ob : Block) (b : BlockInternal) : Prop :=
  ob.size = b.size ∧ ob.charge_in = b.charge_in ∧ ob.charge_out = b.charge_out

/-! ### General helper lemmas -/

/-- Invariant preservation through a left fold, with membership of the
fold elements available in the step hypothesis. -/
theorem foldl_inv {α β : Type*} (P : β → Prop) {f : β → α → β} :
    ∀ (l : List α) {b : β}, P b → (∀ b a, a ∈ l → P b → P (f b a)) →
      P (l.foldl f b) := by
  intro l
  induction l with
  | nil => intro b hb _; exact hb
  | cons a l ih =>
    intro b hb hf
    exact ih (hf b a (by simp) hb) (fun b x hx hb => hf b x (by simp [hx]) hb)

/-- Two left folds over the same list, related step by step. -/
theorem foldl_rel {α β γ : Type*} (R : β → γ → Prop) {f : β → α → β}
    {g : γ → α → γ} :
    ∀ (l : List α) {b : β} {c : γ}, R b c →
      (∀ b c a, a ∈ l → R b c → R (f b a) (g c a)) →
      R (l.foldl f b) (l.foldl g c) := by
  intro l
  induction l with
  | nil => intro b c hb _; exact hb
  | cons a l ih =>
    intro b c hb hf
    exact ih (hf b c a (by simp) hb) (fun b c x hx hb => hf b c x (by simp [hx]) hb)

/-- `round2` always produces an integer number of hundredths. -/
theorem round2_hundredths (q : ℚ) : ∃ z : ℤ, round2 q = (z : ℚ) / 100 :=
  ⟨round_away (q * 100), rfl⟩

/-- Two quantities that are whole numbers of hundredths and strictly
ordered differ by at least one hundredth. -/
theorem hundredths_lt_le (a b : ℚ) (ha : ∃ z : ℤ, a = (z : ℚ) / 100)
    (hb : ∃ z : ℤ, b = (z : ℚ) / 100) (h : a < b) : a ≤ b - 1 / 100 := by
  obtain ⟨za, rfl⟩ := ha
  obtain ⟨zb, rfl⟩ := hb
  have hz : za < zb := by
    have := (div_lt_div_iff_of_pos_right (show (0:ℚ) < 100 by norm_num)).mp h
    exact_mod_cast this
  have hz' : za ≤ zb - 1 := by omega
  have hq : (za : ℚ) ≤ (zb : ℚ) - 1 := by exact_mod_cast hz'
  linarith

/-! ### Tiling predicate -/

theorem Chained.le {bs : List BlockInternal} :
    ∀ {a b : ℕ} {cin cout : ℚ}, Chained bs a b cin cout → a ≤ b := by
  induction bs with
  | nil => intro a b cin cout h; exact h.1.le
  | cons blk rest ih =>
    intro a b cin cout h
    exact le_trans (Nat.le_add_right a blk.size) (ih h.2.2)

theorem Chained.append {l₁ : List BlockInternal} :
    ∀ {l₂ : List BlockInternal} {a m b : ℕ} {c₁ c₂ c₃ : ℚ},
      Chained l₁ a m c₁ c₂ → Chained l₂ m b c₂ c₃ →
      Chained (l₁ ++ l₂) a b c₁ c₃ := by
  induction l₁ with
  | nil =>
    intro l₂ a m b c₁ c₂ c₃ h₁ h₂
    obtain ⟨rfl, rfl⟩ := h₁
    simpa using h₂
  | cons blk rest ih =>
    intro l₂ a m b c₁ c₂ c₃ h₁ h₂
    exact ⟨h₁.1, h₁.2.1, ih h₁.2.2 h₂⟩

theorem Chained.mem_bounds {bs : List BlockInternal} :
    ∀ {a b : ℕ} {cin cout : ℚ}, Chained bs a b cin cout →
      ∀ blk ∈ bs, a ≤ blk.start_hour ∧ blk.start_hour + blk.size ≤ b := by
  induction bs with
  | nil => intro a b cin cout _ blk hm; cases hm
  | cons hd rest ih =>
    intro a b cin cout h blk hm
    rcases List.mem_cons.mp hm with rfl | hm
    · have hs := h.1
      have htail := h.2.2.le
      exact ⟨by omega, by omega⟩
    · have := ih h.2.2 blk hm
      exact ⟨by omega, this.2⟩

theorem Chained.sizes_sum {bs : List BlockInternal} :
    ∀ {a b : ℕ} {cin cout : ℚ}, Chained bs a b cin cout →
      (bs.map BlockInternal.size).sum + a = b := by
  induction bs with
  | nil => intro a b cin cout h; simpa using h.1
  | cons hd rest ih =>
    intro a b cin cout h
    have := ih h.2.2
    simp only [List.map_cons, List.sum_cons]
    omega

theorem Chained.chain_charge {bs : List BlockInternal} :
    ∀ {a b : ℕ} {cin cout : ℚ}, Chained bs a b cin cout →
      List.Chain' (fun x y => y.charge_in = x.charge_out) bs := by
  induction bs with
  | nil => intro a b cin cout _; simp
  | cons hd rest ih =>
    intro a b cin cout h
    cases rest with
    | nil => simp
    | cons hd₂ rest₂ =>
      exact List.Chain'.cons h.2.2.2.1 (ih h.2.2)

/-! ### PeriodAccountant lemmas -/

theorem update_for_pv_fields (s : Schedule) (bt : BlockType) (st e : ℕ) (cin : ℚ) :
    (s.update_for_pv bt st e cin).block_type = bt ∧
    (s.update_for_pv bt st e cin).start = st ∧
    (s.update_for_pv bt st e cin).size = e - st ∧
    (s.update_for_pv bt st e cin).charge_in = cin ∧
    (s.update_for_pv bt st e cin).hold_level =
      (if bt ≠ BlockType.Use then cin else 0) := by
  rw [Schedule.update_for_pv]
  split
  · exact ⟨rfl, rfl, rfl, rfl, rfl⟩
  · refine foldl_inv (fun pm : PeriodMetrics => pm.block_type = bt ∧ pm.start = st ∧
      pm.size = e - st ∧ pm.charge_in = cin ∧
      pm.hold_level = (if bt ≠ BlockType.Use then cin else 0)) _
      ⟨rfl, rfl, rfl, rfl, rfl⟩ ?_
    intro pm i _ hpm
    rw [Schedule.add_net_prod]
    split <;> split <;> exact hpm

/-- The battery-capacity ceiling is nonnegative. -/
theorem bat_kwh_nonneg : (0 : ℚ) ≤ bat_kwh := by norm_num [bat_kwh]

/-- For Hold/Use periods starting with a charge inside `[0, bat_kwh]`,
the resulting charge-out stays inside `[0, bat_kwh]`; for Charge periods
the charge is untouched. -/
theorem update_for_pv_charge_out_bounds (s : Schedule) (bt : BlockType)
    (st e : ℕ) (cin : ℚ) (h0 : 0 ≤ cin) (hb : cin ≤ bat_kwh) :
    0 ≤ (s.update_for_pv bt st e cin).charge_out ∧
      (s.update_for_pv bt st e cin).charge_out ≤ bat_kwh := by
  have hl0 : 0 ≤ (if bt ≠ BlockType.Use then cin else 0) := by
    split
    · exact h0
    · exact le_rfl
  have hlb : (if bt ≠ BlockType.Use then cin else 0) ≤ bat_kwh := by
    split
    · exact hb
    · exact bat_kwh_nonneg
  rw [Schedule.update_for_pv]
  split
  · exact ⟨h0, hb⟩
  · refine (foldl_inv (fun pm : PeriodMetrics =>
        pm.hold_level = (if bt ≠ BlockType.Use then cin else 0) ∧
          0 ≤ pm.charge_out ∧ pm.charge_out ≤ bat_kwh)
        (List.range' st (e - st)) ⟨rfl, h0, hb⟩ ?_).2
    intro pm i _ hpm
    have hkey : ∀ x : ℚ, ¬(pm.charge_out + x < pm.hold_level) →
        0 ≤ min (pm.charge_out + x) bat_kwh ∧
          min (pm.charge_out + x) bat_kwh ≤ bat_kwh := by
      intro x hnot
      refine ⟨le_min ?_ bat_kwh_nonneg, min_le_right _ _⟩
      have h1 : pm.hold_level ≤ pm.charge_out + x := le_of_not_lt hnot
      have h2 : (0:ℚ) ≤ pm.hold_level := hpm.1 ▸ hl0
      linarith
    rw [Schedule.add_net_prod]
    split <;> split
    · exact ⟨hpm.1, hpm.1 ▸ hl0, hpm.1 ▸ hlb⟩
    · rename_i hnot
      exact ⟨hpm.1, hkey _ hnot⟩
    · exact ⟨hpm.1, hpm.1 ▸ hl0, hpm.1 ▸ hlb⟩
    · rename_i hnot
      exact ⟨hpm.1, hkey _ hnot⟩

/-- An empty Hold/Use/Charge period passes the charge through. -/
theorem update_for_pv_charge_out_empty (s : Schedule) (bt : BlockType)
    (st e : ℕ) (cin : ℚ) (h : e ≤ st) :
    (s.update_for_pv bt st e cin).charge_out = cin := by
  have hz : e - st = 0 := Nat.sub_eq_zero_of_le h
  rw [Schedule.update_for_pv]
  split
  · rfl
  · rw [hz]
    rfl

/-! ### Block-producer lemmas -/

theorem goodBlocks_nil : GoodBlocks [] := by
  intro blk hm
  cases hm

theorem goodBlocks_append {l₁ l₂ : List BlockInternal}
    (h₁ : GoodBlocks l₁) (h₂ : GoodBlocks l₂) : GoodBlocks (l₁ ++ l₂) := by
  intro blk hm
  rcases List.mem_append.mp hm with h | h
  · exact h₁ blk h
  · exact h₂ blk h

/-- The end slot returned by `charge_cost_charge_end` lies between the
requested start and the horizon end. -/
theorem charge_cost_end_bounds (s : Schedule) (st : ℕ) (q : ℚ) (h : st ≤ s.length) :
    st ≤ (s.charge_cost_charge_end st q).2 ∧
      (s.charge_cost_charge_end st q).2 ≤ s.length := by
  simp only [Schedule.charge_cost_charge_end]
  exact ⟨le_min (Nat.le_add_right _ _) h, min_le_right _ _⟩

/-- A SoC target on the 0..90 grid translates to a charge level inside
the battery bounds (`90 · soc_kwh = bat_kwh` with the source constants). -/
theorem soc_target_bounds (lvl : ℕ) (h : lvl ≤ 90) :
    0 ≤ (lvl : ℚ) * soc_kwh ∧ (lvl : ℚ) * soc_kwh ≤ bat_kwh := by
  constructor
  · exact mul_nonneg (Nat.cast_nonneg lvl) (by norm_num [soc_kwh])
  · have hc : (lvl : ℚ) ≤ 90 := by exact_mod_cast h
    calc (lvl : ℚ) * soc_kwh ≤ 90 * soc_kwh :=
          mul_le_mul_of_nonneg_right hc (by norm_num [soc_kwh])
      _ = bat_kwh := by norm_num [soc_kwh, bat_kwh]

/-- The optional leading Hold block of `seek_charge`/`seek_use` tiles
`[init, st)` and threads the charge from `cin` to the accountant's
charge-out. -/
theorem hold_prefix_chained (s : Schedule) (init st : ℕ) (cin : ℚ)
    (hinit : init ≤ st) :
    Chained
      (if 0 < (s.update_for_pv BlockType.Hold init st cin).size then
        [get_none_charge_block (s.update_for_pv BlockType.Hold init st cin)] else [])
      init st cin (s.update_for_pv BlockType.Hold init st cin).charge_out := by
  obtain ⟨_, hstart, hsize, hcin, _⟩ := update_for_pv_fields s BlockType.Hold init st cin
  split
  · exact ⟨by simp [get_none_charge_block, hstart],
      by simp [get_none_charge_block, hcin],
      by simp [get_none_charge_block, hsize]; omega,
      by simp [get_none_charge_block]⟩
  · rename_i hsz
    have hstinit : st = init := by omega
    subst hstinit
    exact ⟨rfl, (update_for_pv_charge_out_empty s BlockType.Hold st st cin le_rfl).symm⟩

/-- The optional leading Hold block is well formed. -/
theorem hold_prefix_good (s : Schedule) (init st : ℕ) (cin : ℚ)
    (h0 : 0 ≤ cin) (hb : cin ≤ bat_kwh) :
    GoodBlocks
      (if 0 < (s.update_for_pv BlockType.Hold init st cin).size then
        [get_none_charge_block (s.update_for_pv BlockType.Hold init st cin)] else []) := by
  obtain ⟨hco0, hcob⟩ := update_for_pv_charge_out_bounds s BlockType.Hold init st cin h0 hb
  split
  · rename_i hsz
    intro blk hm
    rcases List.mem_singleton.mp hm with rfl
    exact ⟨hsz, hco0, hcob⟩
  · exact goodBlocks_nil

theorem seek_charge_spec (s : Schedule) (init st lvl : ℕ) (cin : ℚ)
    (hinit : init ≤ st) (hst : st ≤ s.length) (h0 : 0 ≤ cin) (hb : cin ≤ bat_kwh)
    (hlvl : lvl ≤ 90) :
    Chained (s.seek_charge init st lvl cin).blocks init
        (s.seek_charge init st lvl cin).next_start cin
        (s.seek_charge init st lvl cin).next_charge_in ∧
      st ≤ (s.seek_charge init st lvl cin).next_start ∧
      (s.seek_charge init st lvl cin).next_start ≤ s.length ∧
      GoodBlocks (s.seek_charge init st lvl cin).blocks ∧
      0 ≤ (s.seek_charge init st lvl cin).next_charge_in ∧
      (s.seek_charge init st lvl cin).next_charge_in ≤ bat_kwh := by
  obtain ⟨hsoc0, hsocb⟩ := soc_target_bounds lvl hlvl
  obtain ⟨_, _, hhsize, _, _⟩ := update_for_pv_fields s BlockType.Hold init st cin
  obtain ⟨hhco0, hhcob⟩ := update_for_pv_charge_out_bounds s BlockType.Hold init st cin h0 hb
  have hchain := hold_prefix_chained s init st cin hinit
  have hgood := hold_prefix_good s init st cin h0 hb
  simp only [Schedule.seek_charge]
  split
  · rename_i hneed
    obtain ⟨hce1, hce2⟩ := charge_cost_end_bounds s st
      (((lvl : ℚ) * soc_kwh - (s.update_for_pv BlockType.Hold init st cin).charge_out) /
        charge_efficiency) hst
    obtain ⟨_, _, hcsize, _, _⟩ := update_for_pv_fields s BlockType.Charge st
      (s.charge_cost_charge_end st
        (((lvl : ℚ) * soc_kwh - (s.update_for_pv BlockType.Hold init st cin).charge_out) /
          charge_efficiency)).2 0
    split
    · rename_i hcsz
      refine ⟨?_, ?_, ?_, ?_, hsoc0, hsocb⟩
      · refine Chained.append hchain ⟨rfl, rfl, ?_, rfl⟩
        rw [hcsize]
      · exact Nat.le_add_right _ _
      · dsimp only
        omega
      · refine goodBlocks_append hgood ?_
        intro blk hm
        rcases List.mem_singleton.mp hm with rfl
        exact ⟨hcsz, hsoc0, hsocb⟩
    · rename_i hcsz
      have hz : (s.charge_cost_charge_end st
          (((lvl : ℚ) * soc_kwh - (s.update_for_pv BlockType.Hold init st cin).charge_out) /
            charge_efficiency)).2 - st = 0 := by omega
      refine ⟨?_, ?_, ?_, hgood, hhco0, hhcob⟩
      · rw [hz]
        simpa using hchain
      · dsimp only
        omega
      · dsimp only
        omega
  · exact ⟨hchain, le_rfl, hst, hgood, hhco0, hhcob⟩

theorem seek_use_spec (s : Schedule) (init sst sen : ℕ) (cin : ℚ)
    (B : BlockCollection) (hinit : init ≤ sst) (hss : sst ≤ sen)
    (hsen : sen ≤ s.length) (h0 : 0 ≤ cin) (hb : cin ≤ bat_kwh)
    (hsome : s.seek_use init sst sen cin = some B) :
    Chained B.blocks init sen cin B.next_charge_in ∧
      B.next_start = sen ∧
      GoodBlocks B.blocks ∧
      0 ≤ B.next_charge_in ∧ B.next_charge_in ≤ bat_kwh ∧
      1 ≤ B.blocks.length := by
  rw [Schedule.seek_use] at hsome
  split at hsome
  · exact absurd hsome (by simp)
  · rename_i hne
    have hlt : sst < sen := lt_of_le_of_ne hss hne
    obtain ⟨_, _, hhsize, _, _⟩ := update_for_pv_fields s BlockType.Hold init sst cin
    obtain ⟨hhco0, hhcob⟩ := update_for_pv_charge_out_bounds s BlockType.Hold init sst cin h0 hb
    obtain ⟨_, hustart, husize, hucin, _⟩ := update_for_pv_fields s BlockType.Use sst sen
      (s.update_for_pv BlockType.Hold init sst cin).charge_out
    obtain ⟨huco0, hucob⟩ := update_for_pv_charge_out_bounds s BlockType.Use sst sen
      (s.update_for_pv BlockType.Hold init sst cin).charge_out hhco0 hhcob
    have husz : 0 < (s.update_for_pv BlockType.Use sst sen
        (s.update_for_pv BlockType.Hold init sst cin).charge_out).size := by omega
    have hchain := hold_prefix_chained s init sst cin hinit
    have hgood := hold_prefix_good s init sst cin h0 hb
    obtain rfl := (Option.some_inj.mp hsome).symm
    rw [if_pos husz]
    refine ⟨?_, ?_, ?_, huco0, hucob, ?_⟩
    · refine Chained.append hchain ⟨?_, ?_, ?_, rfl⟩
      · simp [get_none_charge_block, hustart]
      · simp [get_none_charge_block, hucin]
      · simp [get_none_charge_block, husize]
        omega
    · dsimp only
      omega
    · refine goodBlocks_append hgood ?_
      intro blk hm
      rcases List.mem_singleton.mp hm with rfl
      exact ⟨by simpa [get_none_charge_block] using husz, huco0, hucob⟩
    · simp

/-! ### Small structural lemmas about the seek functions -/

theorem seek_charge_next_le (s : Schedule) (init st lvl : ℕ) (cin : ℚ)
    (hst : st ≤ s.length) :
    (s.seek_charge init st lvl cin).next_start ≤ s.length := by
  have hce := charge_cost_end_bounds s st
    (((lvl : ℚ) * soc_kwh - (s.update_for_pv BlockType.Hold init st cin).charge_out) /
      charge_efficiency) hst
  simp only [Schedule.seek_charge]
  split
  · split <;> (dsimp only; omega)
  · exact hst

theorem seek_use_next_eq (s : Schedule) (init sst sen : ℕ) (cin : ℚ)
    (B : BlockCollection) (hss : sst ≤ sen)
    (hsome : s.seek_use init sst sen cin = some B) : B.next_start = sen := by
  rw [Schedule.seek_use] at hsome
  split at hsome
  · exact absurd hsome (by simp)
  · obtain ⟨_, hustart, husize, _, _⟩ := update_for_pv_fields s BlockType.Use sst sen
      (s.update_for_pv BlockType.Hold init sst cin).charge_out
    obtain rfl := (Option.some_inj.mp hsome).symm
    dsimp only
    omega

theorem seek_use_some_len (s : Schedule) (init sst sen : ℕ) (cin : ℚ)
    (B : BlockCollection) (hss : sst ≤ sen)
    (hsome : s.seek_use init sst sen cin = some B) : 1 ≤ B.blocks.length := by
  rw [Schedule.seek_use] at hsome
  split at hsome
  · exact absurd hsome (by simp)
  · rename_i hne
    obtain ⟨_, _, husize, _, _⟩ := update_for_pv_fields s BlockType.Use sst sen
      (s.update_for_pv BlockType.Hold init sst cin).charge_out
    have husz : 0 < (s.update_for_pv BlockType.Use sst sen
        (s.update_for_pv BlockType.Hold init sst cin).charge_out).size := by omega
    obtain rfl := (Option.some_inj.mp hsome).symm
    dsimp only
    rw [if_pos husz]
    simp

/-! ### record_best_collection lemmas -/

theorem base_blocks_length (s : Schedule) (cin : ℚ) :
    (s.create_base_block_collection cin).blocks.length = 1 := rfl

theorem base_total_hundredths (s : Schedule) (cin : ℚ) :
    ∃ z : ℤ, (s.create_base_block_collection cin).total_cost = (z : ℚ) / 100 :=
  round2_hundredths _

theorem record_best_cost (s : Schedule) (cin : ℚ) (quad : List BlockCollection)
    (best : BlockCollection)
    (hq : 1 ≤ (quad.map (fun b => b.blocks.length)).sum)
    (hinv : CostInv s cin best) :
    CostInv s cin (s.record_best_collection quad best) := by
  have hbase_le : best.total_cost ≤ (s.create_base_block_collection cin).total_cost := by
    rcases hinv.1 with h | h
    · rw [h]
    · exact le_of_lt h
  simp only [Schedule.record_best_collection]
  by_cases hlt : (quad.getLastD Schedule.dummy_collection).next_start < s.length
  · rw [if_pos hlt]
    dsimp only
    split_ifs with h1 h2 h3
    · refine ⟨Or.inr ?_, ?_⟩
      · simp only [Schedule.collect_blocks]
        exact lt_of_lt_of_le h1 hbase_le
      · simp only [Schedule.collect_blocks]
        exact ⟨_, rfl⟩
    · have hne : best ≠ s.create_base_block_collection cin := by
        intro heq
        rw [heq, base_blocks_length] at h3
        omega
      have hblt : best.total_cost < (s.create_base_block_collection cin).total_cost := by
        rcases hinv.1 with h | h
        · exact absurd h hne
        · exact h
      refine ⟨Or.inr ?_, ?_⟩
      · simp only [Schedule.collect_blocks]
        rw [h2]
        exact hblt
      · simp only [Schedule.collect_blocks]
        exact ⟨_, rfl⟩
    · exact hinv
    · exact hinv
  · rw [if_neg hlt]
    dsimp only
    split_ifs with h1 h2 h3
    · refine ⟨Or.inr ?_, ?_⟩
      · simp only [Schedule.collect_blocks]
        exact lt_of_lt_of_le h1 hbase_le
      · simp only [Schedule.collect_blocks]
        exact ⟨_, rfl⟩
    · have hne : best ≠ s.create_base_block_collection cin := by
        intro heq
        rw [heq, base_blocks_length] at h3
        omega
      have hblt : best.total_cost < (s.create_base_block_collection cin).total_cost := by
        rcases hinv.1 with h | h
        · exact absurd h hne
        · exact h
      refine ⟨Or.inr ?_, ?_⟩
      · simp only [Schedule.collect_blocks]
        rw [h2]
        exact hblt
      · simp only [Schedule.collect_blocks]
        exact ⟨_, rfl⟩
    · exact hinv
    · exact hinv

theorem record_best_good (s : Schedule) (cin : ℚ) (quad : List BlockCollection)
    (best lastq : BlockCollection)
    (hlast : quad.getLastD Schedule.dummy_collection = lastq)
    (hch : Chained ((quad.map (fun b => b.blocks)).flatten) 0 lastq.next_start
      cin lastq.next_charge_in)
    (hle : lastq.next_start ≤ s.length)
    (hg : GoodBlocks ((quad.map (fun b => b.blocks)).flatten))
    (h0 : 0 ≤ lastq.next_charge_in) (hb : lastq.next_charge_in ≤ bat_kwh)
    (hbest : GoodBC s cin best) :
    GoodBC s cin (s.record_best_collection quad best) := by
  obtain ⟨_, htstart, htsize, htcin, _⟩ := update_for_pv_fields s BlockType.Hold
    lastq.next_start s.length lastq.next_charge_in
  obtain ⟨htco0, htcob⟩ := update_for_pv_charge_out_bounds s BlockType.Hold
    lastq.next_start s.length lastq.next_charge_in h0 hb
  simp only [Schedule.record_best_collection, hlast]
  by_cases hlt : lastq.next_start < s.length
  · have hcollect : ∀ tc : ℚ,
        GoodBC s cin (s.collect_blocks quad s.length
          (s.update_for_pv BlockType.Hold lastq.next_start s.length lastq.next_charge_in).charge_out
          tc (some (s.update_for_pv BlockType.Hold lastq.next_start s.length lastq.next_charge_in))) := by
      intro tc
      constructor
      · simp only [Schedule.collect_blocks]
        refine Chained.append hch ⟨?_, ?_, ?_, rfl⟩
        · simp [get_none_charge_block, htstart]
        · simp [get_none_charge_block, htcin]
        · simp [get_none_charge_block, htsize]
          omega
      · simp only [Schedule.collect_blocks]
        refine goodBlocks_append hg ?_
        intro blk hm
        rcases List.mem_singleton.mp hm with rfl
        refine ⟨?_, htco0, htcob⟩
        simp [get_none_charge_block, htsize]
        omega
    rw [if_pos hlt]
    dsimp only
    split_ifs with h1 h2 h3
    · exact hcollect _
    · exact hcollect _
    · exact hbest
    · exact hbest
  · have heq : lastq.next_start = s.length := by omega
    have hcollect : ∀ tc : ℚ,
        GoodBC s cin (s.collect_blocks quad s.length lastq.next_charge_in tc none) := by
      intro tc
      constructor
      · simp only [Schedule.collect_blocks]
        rw [← heq]
        exact hch
      · simp only [Schedule.collect_blocks]
        exact hg
    rw [if_neg hlt]
    dsimp only
    split_ifs with h1 h2 h3
    · exact hcollect _
    · exact hcollect _
    · exact hbest
    · exact hbest

/-! ### Search-wide invariants -/

theorem seek_best_cost_inv (s : Schedule) (cin : ℚ) :
    CostInv s cin (s.seek_best cin) := by
  rw [Schedule.seek_best]
  refine foldl_inv (CostInv s cin) _ ⟨Or.inl rfl, base_total_hundredths s cin⟩ ?_
  intro best sfc hsfc hbest
  refine foldl_inv (CostInv s cin) _ hbest ?_
  intro best clf _ hbest
  dsimp only
  refine foldl_inv (CostInv s cin) _ hbest ?_
  intro best sfu hsfu hbest
  refine foldl_inv (CostInv s cin) _ hbest ?_
  intro best uef huef hbest
  dsimp only
  have hss : sfu ≤ uef := (List.mem_range'_1.mp huef).1
  cases hq1 : s.seek_use (s.seek_charge 0 sfc clf cin).next_start sfu uef
      (s.seek_charge 0 sfc clf cin).next_charge_in with
  | none => exact hbest
  | some q1 =>
    have hlen1 : 1 ≤ q1.blocks.length := seek_use_some_len _ _ _ _ _ _ hss hq1
    have hrec : CostInv s cin
        (s.record_best_collection [s.seek_charge 0 sfc clf cin, q1] best) := by
      refine record_best_cost s cin _ best ?_ hbest
      simp
      omega
    dsimp only
    refine foldl_inv (CostInv s cin) _ hrec ?_
    intro best sfc2 hsfc2 hbest
    refine foldl_inv (CostInv s cin) _ hbest ?_
    intro best clf2 _ hbest
    dsimp only
    refine foldl_inv (CostInv s cin) _ hbest ?_
    intro best sfu2 hsfu2 hbest
    have hq0le : (s.seek_charge 0 sfc clf cin).next_start ≤ s.length :=
      seek_charge_next_le _ _ _ _ _ (le_of_lt (List.mem_range.mp hsfc))
    have hsfu_mem := List.mem_range'_1.mp hsfu
    have huef_le : uef ≤ s.length := by
      have := (List.mem_range'_1.mp huef).2
      omega
    have hq1ns : q1.next_start = uef := seek_use_next_eq _ _ _ _ _ _ hss hq1
    have hsfc2_mem := List.mem_range'_1.mp hsfc2
    have hsfc2lt : sfc2 < s.length := by omega
    have hq2le : (s.seek_charge q1.next_start sfc2 clf2 q1.next_charge_in).next_start ≤
        s.length := seek_charge_next_le _ _ _ _ _ (le_of_lt hsfc2lt)
    have hsfu2_mem := List.mem_range'_1.mp hsfu2
    have hsfu2le : sfu2 ≤ s.length := by omega
    cases hq3 : s.seek_use
        (s.seek_charge q1.next_start sfc2 clf2 q1.next_charge_in).next_start sfu2
        s.length (s.seek_charge q1.next_start sfc2 clf2 q1.next_charge_in).next_charge_in with
    | none => exact hbest
    | some q3 =>
      have hlen3 : 1 ≤ q3.blocks.length := seek_use_some_len _ _ _ _ _ _ hsfu2le hq3
      refine record_best_cost s cin _ best ?_ hbest
      simp
      omega

theorem soc_levels_le (x : ℕ) (h : x ∈ soc_levels) : x ≤ 90 := by
  simp only [soc_levels, List.mem_map, List.mem_range] at h
  obtain ⟨k, hk, rfl⟩ := h
  omega

theorem create_base_good (s : Schedule) (cin : ℚ) (hN : 1 ≤ s.length)
    (h0 : 0 ≤ cin) (hb : cin ≤ bat_kwh) :
    GoodBC s cin (s.create_base_block_collection cin) := by
  obtain ⟨_, hstart, hsize, hcin, _⟩ := update_for_pv_fields s BlockType.Use 0 s.length cin
  obtain ⟨hco0, hcob⟩ := update_for_pv_charge_out_bounds s BlockType.Use 0 s.length cin h0 hb
  constructor
  · simp only [Schedule.create_base_block_collection]
    refine ⟨?_, ?_, ?_, ?_⟩
    · simp [get_none_charge_block, hstart]
    · simp [get_none_charge_block, hcin]
    · simp [get_none_charge_block, hsize]
    · simp [get_none_charge_block]
  · simp only [Schedule.create_base_block_collection]
    intro blk hm
    rcases List.mem_singleton.mp hm with rfl
    refine ⟨?_, hco0, hcob⟩
    simp [get_none_charge_block, hsize]
    omega

theorem seek_best_good (s : Schedule) (cin : ℚ) (hN : 1 ≤ s.length)
    (h0 : 0 ≤ cin) (hb : cin ≤ bat_kwh) : GoodBC s cin (s.seek_best cin) := by
  rw [Schedule.seek_best]
  refine foldl_inv (GoodBC s cin) _ (create_base_good s cin hN h0 hb) ?_
  intro best sfc hsfc hbest
  refine foldl_inv (GoodBC s cin) _ hbest ?_
  intro best clf hclf hbest
  dsimp only
  refine foldl_inv (GoodBC s cin) _ hbest ?_
  intro best sfu hsfu hbest
  refine foldl_inv (GoodBC s cin) _ hbest ?_
  intro best uef huef hbest
  dsimp only
  have hsfcN : sfc ≤ s.length := le_of_lt (List.mem_range.mp hsfc)
  have hclf90 : clf ≤ 90 := soc_levels_le clf hclf
  obtain ⟨hq0ch, hq0ns1, hq0ns2, hq0good, hq0c0, hq0cb⟩ :=
    seek_charge_spec s 0 sfc clf cin (Nat.zero_le _) hsfcN h0 hb hclf90
  have hsfu_mem := List.mem_range'_1.mp hsfu
  have huef_mem := List.mem_range'_1.mp huef
  have hss : sfu ≤ uef := huef_mem.1
  have huef_le : uef ≤ s.length := by omega
  cases hq1 : s.seek_use (s.seek_charge 0 sfc clf cin).next_start sfu uef
      (s.seek_charge 0 sfc clf cin).next_charge_in with
  | none => exact hbest
  | some q1 =>
    obtain ⟨hq1ch, hq1ns, hq1good, hq1c0, hq1cb, _⟩ :=
      seek_use_spec s (s.seek_charge 0 sfc clf cin).next_start sfu uef
        (s.seek_charge 0 sfc clf cin).next_charge_in q1 hsfu_mem.1 hss huef_le
        hq0c0 hq0cb hq1
    have hflat2 : (List.map (fun b => b.blocks)
        [s.seek_charge 0 sfc clf cin, q1]).flatten =
        (s.seek_charge 0 sfc clf cin).blocks ++ q1.blocks := by simp
    have hrec : GoodBC s cin
        (s.record_best_collection [s.seek_charge 0 sfc clf cin, q1] best) := by
      refine record_best_good s cin _ best q1 rfl ?_ ?_ ?_ hq1c0 hq1cb hbest
      · rw [hflat2, hq1ns]
        exact Chained.append hq0ch hq1ch
      · rw [hq1ns]
        exact huef_le
      · rw [hflat2]
        exact goodBlocks_append hq0good hq1good
    dsimp only
    refine foldl_inv (GoodBC s cin) _ hrec ?_
    intro best sfc2 hsfc2 hbest
    refine foldl_inv (GoodBC s cin) _ hbest ?_
    intro best clf2 hclf2 hbest
    dsimp only
    refine foldl_inv (GoodBC s cin) _ hbest ?_
    intro best sfu2 hsfu2 hbest
    have hsfc2_mem := List.mem_range'_1.mp hsfc2
    have hsfc2N : sfc2 ≤ s.length := by omega
    have hclf290 : clf2 ≤ 90 := soc_levels_le clf2 hclf2
    obtain ⟨hq2ch, hq2ns1, hq2ns2, hq2good, hq2c0, hq2cb⟩ :=
      seek_charge_spec s q1.next_start sfc2 clf2 q1.next_charge_in
        hsfc2_mem.1 hsfc2N hq1c0 hq1cb hclf290
    have hsfu2_mem := List.mem_range'_1.mp hsfu2
    have hsfu2le : sfu2 ≤ s.length := by omega
    cases hq3 : s.seek_use
        (s.seek_charge q1.next_start sfc2 clf2 q1.next_charge_in).next_start sfu2
        s.length (s.seek_charge q1.next_start sfc2 clf2 q1.next_charge_in).next_charge_in with
    | none => exact hbest
    | some q3 =>
      obtain ⟨hq3ch, hq3ns, hq3good, hq3c0, hq3cb, _⟩ :=
        seek_use_spec s (s.seek_charge q1.next_start sfc2 clf2 q1.next_charge_in).next_start
          sfu2 s.length (s.seek_charge q1.next_start sfc2 clf2 q1.next_charge_in).next_charge_in
          q3 hsfu2_mem.1 hsfu2le le_rfl hq2c0 hq2cb hq3
      have hflat4 : (List.map (fun b => b.blocks)
          [s.seek_charge 0 sfc clf cin, q1,
            s.seek_charge q1.next_start sfc2 clf2 q1.next_charge_in, q3]).flatten =
          (s.seek_charge 0 sfc clf cin).blocks ++ (q1.blocks ++
            ((s.seek_charge q1.next_start sfc2 clf2 q1.next_charge_in).blocks ++
              q3.blocks)) := by simp
      refine record_best_good s cin _ best q3 rfl ?_ ?_ ?_ hq3c0 hq3cb hbest
      · rw [hflat4, hq3ns]
        rw [← hq1ns] at hq1ch
        exact Chained.append hq0ch (Chained.append hq1ch
          (Chained.append hq2ch hq3ch))
      · exact le_of_eq hq3ns
      · rw [hflat4]
        exact goodBlocks_append hq0good (goodBlocks_append hq1good
          (goodBlocks_append hq2good hq3good))

/-! ### Output conversion lemmas -/

theorem create_result_block_some (off : ℕ) (b : BlockInternal) (hsz : 0 < b.size)
    (hend : b.start_hour + b.size ≤ 96) (hoff : off ≤ 23) :
    ∃ ob : Block, create_result_block off b = some ob ∧ OutMatches ob b := by
  have hstart95 : b.start_hour ≤ 95 := by omega
  have hlast95 : b.start_hour + b.size - 1 ≤ 95 := by omega
  have hok : ¬(23 < (if 23 < b.start_hour / 4 + off then
        b.start_hour / 4 + off - 24 else b.start_hour / 4 + off) ∨
      23 < (if 23 < (b.start_hour + b.size - 1) / 4 + off then
        (b.start_hour + b.size - 1) / 4 + off - 24
        else (b.start_hour + b.size - 1) / 4 + off)) := by
    push_neg
    constructor <;> (split <;> omega)
  simp only [create_result_block]
  rw [if_neg (show ¬(b.start_hour + b.size = 0) by omega), if_neg hok]
  exact ⟨_, rfl, rfl, rfl, rfl⟩

theorem create_result_blocks_some (off : ℕ) (hoff : off ≤ 23) :
    ∀ bs : List BlockInternal,
      (∀ b ∈ bs, 0 < b.size ∧ b.start_hour + b.size ≤ 96) →
      ∃ out : List Block, create_result_blocks off bs = some out ∧
        List.Forall₂ OutMatches out bs := by
  intro bs
  induction bs with
  | nil => exact fun _ => ⟨[], rfl, List.Forall₂.nil⟩
  | cons b bs ih =>
    intro h
    obtain ⟨ob, hob, hm⟩ := create_result_block_some off b
      (h b (by simp)).1 (h b (by simp)).2 hoff
    obtain ⟨out, hout, hfa⟩ := ih (fun x hx => h x (by simp [hx]))
    refine ⟨ob :: out, ?_, List.Forall₂.cons hm hfa⟩
    rw [create_result_blocks, hob, hout]

theorem forall2_sizes {out : List Block} {bs : List BlockInternal}
    (h : List.Forall₂ OutMatches out bs) :
    out.map Block.size = bs.map BlockInternal.size := by
  induction h with
  | nil => rfl
  | cons hrel _ ih => simp [hrel.1, ih]

theorem forall2_chain {out : List Block} {bs : List BlockInternal}
    (h : List.Forall₂ OutMatches out bs)
    (hc : List.Chain' (fun x y => y.charge_in = x.charge_out) bs) :
    List.Chain' (fun x y => y.charge_in = x.charge_out) out := by
  induction h with
  | nil => simp
  | cons hrel htail ih =>
    rename_i a b l₁ l₂
    cases htail with
    | nil => simp
    | cons hrel2 htail2 =>
      rename_i a2 b2 l₁' l₂'
      obtain ⟨hhead, htl⟩ := List.chain'_cons.mp hc
      refine List.chain'_cons.mpr ⟨?_, ih htl⟩
      rw [hrel2.2.1, hhead, ← hrel.2.2]

theorem forall2_bounds {out : List Block} {bs : List BlockInternal}
    (h : List.Forall₂ OutMatches out bs) (hg : GoodBlocks bs) :
    ∀ ob ∈ out, 0 ≤ ob.charge_out ∧ ob.charge_out ≤ bat_kwh := by
  induction h with
  | nil => intro ob hm; cases hm
  | cons hrel htail ih =>
    intro ob hm
    rcases List.mem_cons.mp hm with rfl | hm
    · rw [hrel.2.2]
      exact (hg _ (by simp)).2
    · exact ih (fun x hx => hg x (by simp [hx])) ob hm

/-! ### update_scheduling plumbing -/

theorem charge_in_of_bounds (soc : ℕ) (h : soc ≤ 100) :
    0 ≤ charge_in_of soc ∧ charge_in_of soc ≤ bat_kwh := by
  unfold charge_in_of
  exact soc_target_bounds _ (by omega)

theorem schedule_of_length (t p c : List ℚ) :
    (schedule_of t p c).length = t.length := rfl

/-- The assembled result of `update_scheduling`: for a non-degenerate
horizon within the 96-slot arrays and a SoC input within 0..100, the
conversion of the winning collection succeeds and mirrors its blocks. -/
theorem update_scheduling_some (t p c : List ℚ) (soc off : ℕ)
    (hN : 1 ≤ t.length) (h96 : t.length ≤ 96) (hsoc : soc ≤ 100)
    (hoff : off ≤ 23) :
    ∃ out tc, update_scheduling t p c soc off = some (out, tc) ∧
      tc = ((schedule_of t p c).seek_best (charge_in_of soc)).total_cost ∧
      List.Forall₂ OutMatches out
        ((schedule_of t p c).seek_best (charge_in_of soc)).blocks := by
  obtain ⟨hcin0, hcinb⟩ := charge_in_of_bounds soc hsoc
  obtain ⟨hch, hgood⟩ := seek_best_good (schedule_of t p c) (charge_in_of soc)
    (by rw [schedule_of_length]; exact hN) hcin0 hcinb
  have hbnd : ∀ b ∈ ((schedule_of t p c).seek_best (charge_in_of soc)).blocks,
      0 < b.size ∧ b.start_hour + b.size ≤ 96 := by
    intro b hm
    refine ⟨(hgood b hm).1, ?_⟩
    have := (hch.mem_bounds b hm).2
    rw [schedule_of_length] at this
    omega
  obtain ⟨out, hout, hfa⟩ := create_result_blocks_some off hoff
    ((schedule_of t p c).seek_best (charge_in_of soc)).blocks hbnd
  refine ⟨out, _, ?_, rfl, hfa⟩
  simp only [update_scheduling]
  rw [hout]

/-! ### Claim theorems -/

set_option maxRecDepth 200000 in
/-- C1, counterexample.  The code has no `min_saving` threshold: on the
concrete input `tariffs = [0, 0.02]`, `prod = [0, 0]` W,
`cons = [0, 1000]` W, `soc_in = 10`, the search returns a non-baseline
schedule although it undercuts the baseline by exactly one cent — so for
any `min_saving` above 0.01 (here 0.02, the claim's promotion threshold)
the claim "otherwise the baseline is returned verbatim" is false. -/
theorem claim_C1_counterexample :
    (schedule_of [0, 1/50] [0, 0] [0, 1000]).seek_best (charge_in_of 10) ≠
        (schedule_of [0, 1/50] [0, 0] [0, 1000]).create_base_block_collection
          (charge_in_of 10) ∧
      ((schedule_of [0, 1/50] [0, 0] [0, 1000]).create_base_block_collection
          (charge_in_of 10)).total_cost -
        ((schedule_of [0, 1/50] [0, 0] [0, 1000]).seek_best
          (charge_in_of 10)).total_cost = 1/100 ∧
      ¬(((schedule_of [0, 1/50] [0, 0] [0, 1000]).seek_best
          (charge_in_of 10)).total_cost <
        ((schedule_of [0, 1/50] [0, 0] [0, 1000]).create_base_block_collection
          (charge_in_of 10)).total_cost - 2/100) := by
  decide

/-- C1, amended.  `seek_best` never returns a schedule costlier than the
baseline, and it returns either the baseline collection verbatim or a
collection whose rounded total cost is strictly lower — hence lower by
at least 0.01, the resolution of the two-decimal rounding.  There is no
`min_saving` parameter in the code (equivalently `min_saving = 0.01`
under two-decimal rounding). -/
theorem claim_C1_amended (s : Schedule) (cin : ℚ) :
    (s.seek_best cin).total_cost ≤ (s.create_base_block_collection cin).total_cost ∧
      (s.seek_best cin = s.create_base_block_collection cin ∨
        (s.seek_best cin).total_cost ≤
          (s.create_base_block_collection cin).total_cost - 1/100) := by
  obtain ⟨hdisj, hmult⟩ := seek_best_cost_inv s cin
  have hle : (s.seek_best cin).total_cost ≤
      (s.create_base_block_collection cin).total_cost := by
    rcases hdisj with h | h
    · rw [h]
    · exact le_of_lt h
  refine ⟨hle, ?_⟩
  rcases hdisj with h | h
  · exact Or.inl h
  · exact Or.inr (hundredths_lt_le _ _ hmult (base_total_hundredths s cin) h)

/-- C3.  For a valid input (N ≥ 1 quarter slots, at most 96, wall-clock
offset a valid hour, 10 ≤ soc_in ≤ 100) the output block list tiles
`[0, N)` — the block sizes sum to N — threads the battery charge
(`next.charge_in = prev.charge_out`), and every block's `charge_out`
lies in `[0, bat_kwh]`. -/
theorem claim_C3 (t p c : List ℚ) (soc off : ℕ) (hN : 1 ≤ t.length)
    (h96 : t.length ≤ 96) (hsoc1 : 10 ≤ soc) (hsoc2 : soc ≤ 100)
    (hoff : off ≤ 23) :
    ∃ out tc, update_scheduling t p c soc off = some (out, tc) ∧
      (out.map Block.size).sum = t.length ∧
      List.Chain' (fun x y => y.charge_in = x.charge_out) out ∧
      ∀ ob ∈ out, 0 ≤ ob.charge_out ∧ ob.charge_out ≤ bat_kwh := by
  obtain ⟨hcin0, hcinb⟩ := charge_in_of_bounds soc hsoc2
  obtain ⟨hch, hgood⟩ := seek_best_good (schedule_of t p c) (charge_in_of soc)
    (by rw [schedule_of_length]; exact hN) hcin0 hcinb
  obtain ⟨out, tc, hsome, _, hfa⟩ :=
    update_scheduling_some t p c soc off hN h96 hsoc2 hoff
  refine ⟨out, tc, hsome, ?_, ?_, ?_⟩
  · rw [forall2_sizes hfa]
    have := hch.sizes_sum
    rw [schedule_of_length] at this
    omega
  · exact forall2_chain hfa hch.chain_charge
  · exact forall2_bounds hfa hgood

theorem claim_C3_witness :
    ∃ out tc, update_scheduling [1] [0] [0] 10 0 = some (out, tc) ∧
      (out.map Block.size).sum = ([1] : List ℚ).length := by
  obtain ⟨out, tc, h1, h2, _⟩ := claim_C3 [1] [0] [0] 10 0 (by decide)
    (by decide) (by decide) (by decide) (by decide)
  exact ⟨out, tc, h1, h2⟩

set_option maxRecDepth 200000 in
/-- C6, counterexample.  The three series have pairwise different
lengths (1, 0 and 2 entries), yet `update_scheduling` performs no length
validation and cannot return an error (its Rust return type is `()`): it
produces a schedule. -/
theorem claim_C6_counterexample :
    ([1] : List ℚ).length = 1 ∧ ([] : List ℚ).length = 0 ∧
      ([500, 600] : List ℚ).length = 2 ∧
      (update_scheduling [1] [] [500, 600] 50 0).isSome = true := by
  decide

/-- C6, amended.  `update_scheduling` performs no input-length check and
returns no error value; series shorter than the tariff window are read
as zero from the zero-initialized arrays, and (for a horizon of 1..96
slots, a valid hour offset and soc_in ≤ 100) a schedule is always
produced, whatever the production/consumption lengths are. -/
theorem claim_C6_amended (t p c : List ℚ) (soc off : ℕ) (hN : 1 ≤ t.length)
    (h96 : t.length ≤ 96) (hsoc : soc ≤ 100) (hoff : off ≤ 23) :
    (update_scheduling t p c soc off).isSome = true := by
  obtain ⟨out, tc, hsome, _, _⟩ :=
    update_scheduling_some t p c soc off hN h96 hsoc hoff
  rw [hsome]
  rfl

theorem claim_C6_amended_witness :
    (update_scheduling [1] [] [500, 600] 50 0).isSome = true :=
  claim_C6_amended [1] [] [500, 600] 50 0 (by decide) (by decide) (by decide)
    (by decide)

set_option maxRecDepth 200000 in
/-- C7, counterexample.  Line 261 clamps `soc_in` only from below
(`soc_in.max(10)`); a value above 100 is not clamped to 100: with
`soc_in = 101` the derived incoming charge is `91 · soc_kwh = 15.0969`
(above the 14.931 kWh usable capacity), not `90 · soc_kwh`, and the
schedule differs from the one for `soc_in = 100`. -/
theorem claim_C7_counterexample :
    charge_in_of 101 = 150969/10000 ∧
      charge_in_of (min 101 100) = 14931/1000 ∧
      charge_in_of 101 ≠ charge_in_of (min 101 100) ∧
      update_scheduling [1] [0] [0] 101 0 ≠ update_scheduling [1] [0] [0] 100 0 := by
  decide

/-- C7, amended.  A `soc_in` below 10 is clamped up to 10 (so the
incoming charge is 0) and scheduling continues; a `soc_in` above 100 is
NOT clamped: the incoming charge is `(soc_in - 10) · soc_kwh` for every
`soc_in ≥ 10`, including values above 100. -/
theorem claim_C7_amended (soc : ℕ) :
    (soc ≤ 10 → charge_in_of soc = 0) ∧
      (10 ≤ soc → charge_in_of soc = ((soc - 10 : ℕ) : ℚ) * soc_kwh) := by
  constructor
  · intro h
    unfold charge_in_of
    have hm : max soc 10 = 10 := by omega
    rw [hm]
    norm_num
  · intro h
    unfold charge_in_of
    have hm : max soc 10 = soc := by omega
    rw [hm]

theorem claim_C7_witness :
    charge_in_of 5 = 0 ∧ charge_in_of 101 = ((91 : ℕ) : ℚ) * soc_kwh := by
  constructor
  · exact (claim_C7_amended 5).1 (by omega)
  · exact (claim_C7_amended 101).2 (by omega)

set_option maxRecDepth 200000 in
/-- C8.  On a degenerate horizon (no tariffs, N = 0) the search returns
the zero-cost baseline collection holding a single size-0 block, but
`create_result_blocks` does not drop size-0 blocks: it computes
`b.start_hour + b.size - 1`, which underflows `usize` for that block
(and the subsequent `with_hour(..).unwrap()` cannot succeed either), so
the call panics instead of returning an empty schedule with
`total_cost = 0`. -/
theorem claim_C8_crash :
    ((schedule_of [] [] []).seek_best (charge_in_of 10)).total_cost = 0 ∧
      ((schedule_of [] [] []).seek_best (charge_in_of 10)).blocks.length = 1 ∧
      update_scheduling [] [] [] 10 0 = none := by
  decide

/-- C9.  `update_scheduling` is a pure function of its inputs — the
source runs a sequential loop nest over immutable data with no clock,
randomness or thread interleaving — so byte-equal inputs give byte-equal
outputs. -/
theorem claim_C9 (t₁ t₂ p₁ p₂ c₁ c₂ : List ℚ) (soc₁ soc₂ off₁ off₂ : ℕ)
    (ht : t₁ = t₂) (hp : p₁ = p₂) (hc : c₁ = c₂) (hs : soc₁ = soc₂)
    (ho : off₁ = off₂) :
    update_scheduling t₁ p₁ c₁ soc₁ off₁ = update_scheduling t₂ p₂ c₂ soc₂ off₂ := by
  subst ht hp hc hs ho
  rfl

theorem claim_C9_witness :
    update_scheduling [1] [0] [0] 10 0 = update_scheduling [1] [0] [0] 10 0 :=
  claim_C9 [1] [1] [0] [0] [0] [0] 10 10 0 0 rfl rfl rfl rfl rfl

/-- C2.  For a Hold or Use block over `[start, end)` with
`start ≤ end ≤ N`, the accountant walks the slots in order and computes
exactly the per-slot recurrence stated in the claim (`claim_step`), with
`hold_level = charge_in` for Hold and `0` for Use: the final cost and
charge-out of `update_for_pv` are the fold of `claim_step` over the
slot indices starting from `(0, charge_in)`. -/
theorem claim_C2 (s : Schedule) (bt : BlockType) (st en : ℕ) (cin : ℚ)
    (hbt : bt = BlockType.Hold ∨ bt = BlockType.Use) (h1 : st ≤ en)
    (h2 : en ≤ s.length) :
    (s.update_for_pv bt st en cin).cost =
        ((List.range' st (en - st)).foldl
          (claim_step s (if bt = BlockType.Hold then cin else 0)) (0, cin)).1 ∧
      (s.update_for_pv bt st en cin).charge_out =
        ((List.range' st (en - st)).foldl
          (claim_step s (if bt = BlockType.Hold then cin else 0)) (0, cin)).2 ∧
      (s.update_for_pv bt st en cin).hold_level =
        (if bt = BlockType.Hold then cin else 0) := by
  have hbtC : ¬(bt = BlockType.Charge) := by
    rcases hbt with rfl | rfl <;> decide
  have hhl : (if bt ≠ BlockType.Use then cin else 0) =
      (if bt = BlockType.Hold then cin else 0) := by
    rcases hbt with rfl | rfl <;> simp
  rw [Schedule.update_for_pv, if_neg hbtC]
  refine foldl_rel (fun (pm : PeriodMetrics) (acc : ℚ × ℚ) =>
    pm.cost = acc.1 ∧ pm.charge_out = acc.2 ∧
      pm.hold_level = (if bt = BlockType.Hold then cin else 0)) _
    ⟨rfl, rfl, hhl⟩ ?_
  intro pm acc i _ hr
  obtain ⟨hcost, hco, hhold⟩ := hr
  rw [Schedule.add_net_prod, claim_step]
  rw [hco, hcost, hhold]
  split_ifs <;> exact ⟨rfl, rfl, rfl⟩

theorem claim_C2_witness :
    ((schedule_of [1] [0] [500]).update_for_pv BlockType.Use 0 1 0).cost =
        ((List.range' 0 (1 - 0)).foldl
          (claim_step (schedule_of [1] [0] [500])
            (if BlockType.Use = BlockType.Hold then 0 else 0)) (0, 0)).1 ∧
      ((schedule_of [1] [0] [500]).update_for_pv BlockType.Use 0 1 0).charge_out =
        ((List.range' 0 (1 - 0)).foldl
          (claim_step (schedule_of [1] [0] [500])
            (if BlockType.Use = BlockType.Hold then 0 else 0)) (0, 0)).2 ∧
      ((schedule_of [1] [0] [500]).update_for_pv BlockType.Use 0 1 0).hold_level =
        (if BlockType.Use = BlockType.Hold then 0 else 0) :=
  claim_C2 (schedule_of [1] [0] [500]) BlockType.Use 0 1 0 (Or.inr rfl)
    (by omega) (by decide)

theorem rat_trunc_nonneg (q : ℚ) (h : 0 ≤ q) : rat_trunc q = ⌊q⌋ :=
  if_neg (not_lt.mpr h)

theorem update_for_pv_charge_cost (s : Schedule) (st e : ℕ) (cin : ℚ) :
    (s.update_for_pv BlockType.Charge st e cin).cost =
      ((List.range (e - st)).map (fun k => s.buy (st + k) * s.cons (st + k))).sum := by
  rw [Schedule.update_for_pv, if_pos rfl]

/-- For a positive requested charge, `charge_cost_charge_end` prices
exactly the increment list described by the claim (full
`charge_kwh_instance` steps, then the rounded residue), clamped to the
horizon. -/
theorem charge_cost_eq_claim (s : Schedule) (st : ℕ) (q : ℚ) (hq : 0 < q) :
    s.charge_cost_charge_end st q =
      (((List.range ((min (st + (claim_increments q).length) s.length) - st)).map
        (fun k => s.buy (st + k) * (claim_increments q).getD k 0)).sum,
       min (st + (claim_increments q).length) s.length) := by
  have h1 : rat_trunc (q / charge_kwh_instance) = ⌊q / charge_kwh_instance⌋ :=
    rat_trunc_nonneg _ (div_nonneg (le_of_lt hq) (by norm_num [charge_kwh_instance]))
  simp only [Schedule.charge_cost_charge_end, claim_increments, h1]
  refine Prod.ext ?_ rfl
  refine congrArg List.sum (List.map_congr_left ?_)
  intro i _
  exact mul_comm _ _

/-- C4.  Charge sizing: with `need = (soc_target · soc_kwh - charge_in)
/ charge_eff` (`charge_in` being the charge at the charge start, i.e.
the leading Hold's charge-out), a non-positive need emits no Charge
block and leaves the start and cost untouched; a positive need prices
the claim's increment list — `floor(need / charge_step_kwh)` full steps
plus the residue exactly when `round(rem·10) ≠ 0` — over slots clamped
to the horizon end, and adds the Charge-block household cost
`Σ tariff[i]·cons[i]`. -/
theorem claim_C4 (s : Schedule) (init st lvl : ℕ) (cin : ℚ) :
    (claim_need lvl (s.update_for_pv BlockType.Hold init st cin).charge_out ≤ 0 →
      (∀ blk ∈ (s.seek_charge init st lvl cin).blocks,
        blk.block_type ≠ BlockType.Charge) ∧
      (s.seek_charge init st lvl cin).next_start = st ∧
      (s.seek_charge init st lvl cin).total_cost =
        (s.update_for_pv BlockType.Hold init st cin).cost) ∧
    (0 < claim_need lvl (s.update_for_pv BlockType.Hold init st cin).charge_out →
      (s.charge_cost_charge_end st
          (claim_need lvl (s.update_for_pv BlockType.Hold init st cin).charge_out)).2 =
        min (st + (claim_increments (claim_need lvl
          (s.update_for_pv BlockType.Hold init st cin).charge_out)).length) s.length ∧
      (s.charge_cost_charge_end st
          (claim_need lvl (s.update_for_pv BlockType.Hold init st cin).charge_out)).1 =
        ((List.range ((min (st + (claim_increments (claim_need lvl
            (s.update_for_pv BlockType.Hold init st cin).charge_out)).length) s.length) - st)).map
          (fun k => s.buy (st + k) * (claim_increments (claim_need lvl
            (s.update_for_pv BlockType.Hold init st cin).charge_out)).getD k 0)).sum ∧
      (s.seek_charge init st lvl cin).total_cost =
        (s.update_for_pv BlockType.Hold init st cin).cost +
          (s.charge_cost_charge_end st
            (claim_need lvl (s.update_for_pv BlockType.Hold init st cin).charge_out)).1 +
          ((List.range ((s.charge_cost_charge_end st
              (claim_need lvl (s.update_for_pv BlockType.Hold init st cin).charge_out)).2 - st)).map
            (fun k => s.buy (st + k) * s.cons (st + k))).sum) := by
  have hbt := (update_for_pv_fields s BlockType.Hold init st cin).1
  constructor
  · intro h
    have h' : ¬(((lvl : ℚ) * soc_kwh -
        (s.update_for_pv BlockType.Hold init st cin).charge_out) /
          charge_efficiency > 0) := not_lt.mpr h
    rw [Schedule.seek_charge, if_neg h']
    refine ⟨?_, rfl, rfl⟩
    intro blk hm
    revert hm
    split
    · intro hm
      rcases List.mem_singleton.mp hm with rfl
      simp [get_none_charge_block, hbt]
    · intro hm
      cases hm
  · intro h
    have h2 := charge_cost_eq_claim s st
      (claim_need lvl (s.update_for_pv BlockType.Hold init st cin).charge_out) h
    refine ⟨?_, ?_, ?_⟩
    · rw [h2]
    · rw [h2]
    · have h' : ((lvl : ℚ) * soc_kwh -
          (s.update_for_pv BlockType.Hold init st cin).charge_out) /
            charge_efficiency > 0 := h
      have htotal : (s.seek_charge init st lvl cin).total_cost =
          (s.update_for_pv BlockType.Hold init st cin).cost +
            ((s.charge_cost_charge_end st (((lvl : ℚ) * soc_kwh -
                (s.update_for_pv BlockType.Hold init st cin).charge_out) /
                  charge_efficiency)).1 +
              (s.update_for_pv BlockType.Charge st
                (s.charge_cost_charge_end st (((lvl : ℚ) * soc_kwh -
                  (s.update_for_pv BlockType.Hold init st cin).charge_out) /
                    charge_efficiency)).2 0).cost) := by
        simp only [Schedule.seek_charge]
        rw [if_pos h']
        split_ifs <;> rfl
      rw [htotal, update_for_pv_charge_cost]
      unfold claim_need
      ring

theorem claim_C4_witness :
    ((schedule_of [1] [0] [0]).seek_charge 0 0 0 0).next_start = 0 ∧
      ((schedule_of [1] [0] [0]).charge_cost_charge_end 0
        (claim_need 5 ((schedule_of [1] [0] [0]).update_for_pv
          BlockType.Hold 0 0 0).charge_out)).2 =
        min (0 + (claim_increments (claim_need 5 ((schedule_of [1] [0] [0]).update_for_pv
          BlockType.Hold 0 0 0).charge_out)).length) (schedule_of [1] [0] [0]).length := by
  constructor
  · exact ((claim_C4 (schedule_of [1] [0] [0]) 0 0 0 0).1 (by decide)).2.1
  · exact ((claim_C4 (schedule_of [1] [0] [0]) 0 0 5 0).2 (by decide)).1

/-- C5.  One comparison step of the search: the candidate assembled from
`quad` (its cost summed with the trailing Hold's cost and rounded to two
decimals by `round2`, which rounds half away from zero) replaces the
recorded best exactly when `claim_prefer` holds for the pair
`(total_cost, number_of_blocks)` — strictly lower rounded cost, or equal
cost and strictly fewer blocks; on a full tie the previously recorded
best (the first encountered) is kept. -/
theorem claim_C5 (s : Schedule) (quad : List BlockCollection)
    (best : BlockCollection) :
    s.record_best_collection quad best =
      (if claim_prefer
          (round2 ((quad.map (fun b => b.total_cost)).sum +
            (if (quad.getLastD Schedule.dummy_collection).next_start < s.length then
              (s.update_for_pv BlockType.Hold
                (quad.getLastD Schedule.dummy_collection).next_start s.length
                (quad.getLastD Schedule.dummy_collection).next_charge_in).cost
            else 0)),
           (if (quad.getLastD Schedule.dummy_collection).next_start < s.length then 1 else 0) +
             (quad.map (fun b => b.blocks.length)).sum)
          (best.total_cost, best.blocks.length) then
        s.collect_blocks quad s.length
          (if (quad.getLastD Schedule.dummy_collection).next_start < s.length then
            (s.update_for_pv BlockType.Hold
              (quad.getLastD Schedule.dummy_collection).next_start s.length
              (quad.getLastD Schedule.dummy_collection).next_charge_in).charge_out
          else (quad.getLastD Schedule.dummy_collection).next_charge_in)
          (round2 ((quad.map (fun b => b.total_cost)).sum +
            (if (quad.getLastD Schedule.dummy_collection).next_start < s.length then
              (s.update_for_pv BlockType.Hold
                (quad.getLastD Schedule.dummy_collection).next_start s.length
                (quad.getLastD Schedule.dummy_collection).next_charge_in).cost
            else 0)))
          (if (quad.getLastD Schedule.dummy_collection).next_start < s.length then
            some (s.update_for_pv BlockType.Hold
              (quad.getLastD Schedule.dummy_collection).next_start s.length
              (quad.getLastD Schedule.dummy_collection).next_charge_in)
          else none)
      else best) := by
  have main : ∀ (tc : ℚ) (nb : ℕ) (coll : BlockCollection),
      (if tc < best.total_cost then coll
       else if tc = best.total_cost then
         (if nb < best.blocks.length then coll else best)
       else best) =
      (if claim_prefer (tc, nb) (best.total_cost, best.blocks.length) then coll
       else best) := by
    intro tc nb coll
    by_cases h1 : tc < best.total_cost
    · rw [if_pos h1, if_pos (show claim_prefer (tc, nb)
        (best.total_cost, best.blocks.length) from Or.inl h1)]
    · rw [if_neg h1]
      by_cases h2 : tc = best.total_cost
      · rw [if_pos h2]
        by_cases h3 : nb < best.blocks.length
        · rw [if_pos h3, if_pos (show claim_prefer (tc, nb)
            (best.total_cost, best.blocks.length) from Or.inr ⟨h2, h3⟩)]
        · rw [if_neg h3, if_neg (show ¬claim_prefer (tc, nb)
            (best.total_cost, best.blocks.length) from ?_)]
          intro hp
          rcases hp with hp | hp
          · exact h1 hp
          · exact h3 hp.2
      · rw [if_neg h2, if_neg (show ¬claim_prefer (tc, nb)
          (best.total_cost, best.blocks.length) from ?_)]
        intro hp
        rcases hp with hp | hp
        · exact h1 hp
        · exact h2 hp.1
  by_cases hlt : (quad.getLastD Schedule.dummy_collection).next_start < s.length
  · simp only [Schedule.record_best_collection, hlt, if_true]
    exact main _ _ _
  · simp only [Schedule.record_best_collection, hlt, if_false]
    exact main _ _ _

/-- C10.  When the increments required by a grid charge would run past
the horizon end, `charge_cost_charge_end` clamps the end slot to N (so
only the slots before N are priced), yet `seek_charge` still credits the
emitted Charge block — and the chained `next_charge_in` — with the full
target `soc_level · soc_kwh`, energy whose purchase was truncated. -/
theorem claim_C10 (s : Schedule) (init st lvl : ℕ) (cin : ℚ)
    (hpos : 0 < claim_need lvl (s.update_for_pv BlockType.Hold init st cin).charge_out)
    (hst : st < s.length)
    (hbig : s.length < st + (claim_increments (claim_need lvl
      (s.update_for_pv BlockType.Hold init st cin).charge_out)).length) :
    (s.charge_cost_charge_end st (claim_need lvl
        (s.update_for_pv BlockType.Hold init st cin).charge_out)).2 = s.length ∧
      (s.seek_charge init st lvl cin).next_charge_in = (lvl : ℚ) * soc_kwh ∧
      ∃ blk ∈ (s.seek_charge init st lvl cin).blocks,
        blk.block_type = BlockType.Charge ∧
          blk.charge_out = (lvl : ℚ) * soc_kwh := by
  have h2 := charge_cost_eq_claim s st
    (claim_need lvl (s.update_for_pv BlockType.Hold init st cin).charge_out) hpos
  have hend : (s.charge_cost_charge_end st (claim_need lvl
      (s.update_for_pv BlockType.Hold init st cin).charge_out)).2 = s.length := by
    rw [h2]
    dsimp only
    omega
  have h' : ((lvl : ℚ) * soc_kwh -
      (s.update_for_pv BlockType.Hold init st cin).charge_out) /
        charge_efficiency > 0 := hpos
  have hsz : 0 < (s.update_for_pv BlockType.Charge st
      (s.charge_cost_charge_end st (((lvl : ℚ) * soc_kwh -
        (s.update_for_pv BlockType.Hold init st cin).charge_out) /
          charge_efficiency)).2 0).size := by
    have hfields := (update_for_pv_fields s BlockType.Charge st
      (s.charge_cost_charge_end st (((lvl : ℚ) * soc_kwh -
        (s.update_for_pv BlockType.Hold init st cin).charge_out) /
          charge_efficiency)).2 0).2.2.1
    rw [hfields]
    have heq2 : (s.charge_cost_charge_end st (((lvl : ℚ) * soc_kwh -
        (s.update_for_pv BlockType.Hold init st cin).charge_out) /
          charge_efficiency)).2 = s.length := hend
    omega
  refine ⟨hend, ?_, ?_⟩
  · simp only [Schedule.seek_charge]
    rw [if_pos h', if_pos hsz]
  · simp only [Schedule.seek_charge]
    rw [if_pos h', if_pos hsz]
    refine ⟨_, List.mem_append_right _ (List.mem_singleton_self _), rfl, rfl⟩

theorem claim_C10_witness :
    ((schedule_of [1] [0] [0]).seek_charge 0 0 90 0).next_charge_in =
      (90 : ℚ) * soc_kwh :=
  (claim_C10 (schedule_of [1] [0] [0]) 0 0 90 0 (by decide) (by decide)
    (by decide)).2.1

end Mygrid
